import Mathlib

/-!
# Verification of the fusion-compiler expression pipeline

A shallow embedding of the fusion-compiler repository: the lexer
(`src/ast/lexer.rs`), the precedence-climbing parser (`src/ast/parser.rs`)
and the tree-walking evaluator (`src/ast/evaluator.rs`), together with
proofs of the behavioural properties stated in the specification.

Modelling conventions:
* Rust `i64` arithmetic is modelled on `Int` with explicit two's-complement
  wrapping (`wrap64`), matching release-mode Rust semantics.
* The input string is a `List Char`.  The Rust lexer mixes *byte* lengths
  (`self.input.len()`, byte slicing `&self.input[a..b]`) with *character*
  indexing (`self.input.chars().nth(i)`); the embedding keeps that mix
  faithfully: `byteLen` is the UTF-8 byte length, element access is by
  character index, and `sliceBytes` models Rust byte slicing of a `&str`,
  returning `none` exactly when Rust would abort (offset out of range or
  not on a character boundary).
* A Rust function that can abort the process is modelled with an explicit
  `panicked`/`error` result; fallible results use `Option`/`Except`.
* Unbounded loops and the mutually recursive parser take a fuel argument;
  `fuelOut` marks fuel exhaustion and is distinguished from every
  behaviour of the Rust code.
-/

namespace Fusion

/-- Two's-complement wrap-around of an integer into the `i64` range,
modelling release-mode Rust arithmetic. -/
def wrap64 (n : Int) : Int :=
  (n + 2 ^ 63) % 2 ^ 64 - 2 ^ 63

/-- Number of bytes of the UTF-8 encoding of a character, modelling Rust
`char::len_utf8`. -/
def utf8Len (c : Char) : Nat :=
  if c.toNat < 0x80 then 1
  else if c.toNat < 0x800 then 2
  else if c.toNat < 0x10000 then 3
  else 4

/-- UTF-8 byte length of a string, modelling Rust `str::len`. -/
def byteLen : List Char → Nat
  | [] => 0
  | c :: s => utf8Len c + byteLen s

/-- Drop the first `n` bytes of a string, modelling the lower end of a Rust
byte-range slice: `none` when `n` is not a character boundary (or past the
end), in which case Rust aborts. -/
def dropBytes : List Char → Nat → Option (List Char)
  | s, 0 => some s
  | [], _ + 1 => none
  | c :: s, n + 1 =>
    if utf8Len c ≤ n + 1 then dropBytes s (n + 1 - utf8Len c) else none

/-- Take the first `n` bytes of a string, modelling the upper end of a Rust
byte-range slice: `none` when `n` is not a character boundary of the
remainder (or past the end), in which case Rust aborts. -/
def takeBytes : List Char → Nat → Option (List Char)
  | _, 0 => some []
  | [], _ + 1 => none
  | c :: s, n + 1 =>
    if utf8Len c ≤ n + 1 then (takeBytes s (n + 1 - utf8Len c)).map (c :: ·)
    else none

/-- Rust byte slicing `&s[a..b]`: `none` exactly when Rust would abort
(`a > b`, an offset past the end, or an offset inside a multi-byte
character). -/
def sliceBytes (s : List Char) (a b : Nat) : Option (List Char) :=
  if a ≤ b then (dropBytes s a).bind (fun t => takeBytes t (b - a)) else none

/-- The possible kinds of tokens that the lexer can generate
(`TokenKind` in `lexer.rs`). -/
inductive TokenKind where
  | Number (value : Int)
  | Plus
  | Minus
  | Asterisk
  | Slash
  | LeftParen
  | RightParen
  | Whitespace
  | EOF
  | Bad
deriving DecidableEq, Repr

/-- A span of text in the input string (`TextSpan` in `lexer.rs`). -/
structure TextSpan where
  start : Nat
  stop : Nat
  literal : List Char
deriving DecidableEq, Repr

/-- A token generated by the lexer (`Token` in `lexer.rs`). -/
structure Token where
  kind : TokenKind
  span : TextSpan
deriving DecidableEq, Repr

/-- The lexer state (`Lexer` in `lexer.rs`): the input string and the
current cursor position. -/
structure Lexer where
  input : List Char
  current_pos : Nat
deriving DecidableEq, Repr

/-- Rust `char::is_digit(10)`, the predicate used both by
`Lexer::is_number_start` and inside `Lexer::consume_number`. -/
def is_digit10 (c : Char) : Bool :=
  48 ≤ c.toNat && c.toNat ≤ 57

/-- `Lexer::is_number_start`. -/
def is_number_start (c : Char) : Bool :=
  is_digit10 c

/-- Rust `char::is_whitespace` (the Unicode `White_Space` property), used
by `Lexer::is_whitespace`. -/
def is_whitespace (c : Char) : Bool :=
  (0x09 ≤ c.toNat && c.toNat ≤ 0x0D) || c.toNat == 0x20 || c.toNat == 0x85 ||
  c.toNat == 0xA0 || c.toNat == 0x1680 ||
  (0x2000 ≤ c.toNat && c.toNat ≤ 0x200A) || c.toNat == 0x2028 ||
  c.toNat == 0x2029 || c.toNat == 0x202F || c.toNat == 0x205F ||
  c.toNat == 0x3000

/-- `Lexer::current_char`: `self.input.chars().nth(self.current_pos)` —
note the *character* index. -/
def Lexer.current_char (l : Lexer) : Option Char :=
  l.input[l.current_pos]?

/-- `Lexer::consume`: refuses when `current_pos` has reached the *byte*
length, otherwise returns the character at the current *character* index
(possibly `none`) and advances the cursor by one. -/
def Lexer.consume (l : Lexer) : Option Char × Lexer :=
  if byteLen l.input ≤ l.current_pos then (none, l)
  else (l.current_char, ⟨l.input, l.current_pos + 1⟩)

/-- The digit loop of `Lexer::consume_number`, structurally recursive on a
gas bound so that it reduces in the kernel.  Each iteration advances the
cursor by one and the loop stops no later than the end of the character
sequence, so the gas used by `Lexer.consume_number` below is never
exhausted; the gas-out branch returns `none` like the in-loop
`self.consume().unwrap()` abort.  `consume` is inlined as its guard and
its cursor increment. -/
def Lexer.consume_number_go : Nat → Lexer → Int → Option (Int × Lexer)
  | 0, _, _ => none
  | gas + 1, l, number =>
    match l.input[l.current_pos]? with
    | none => some (number, l)
    | some c =>
      if is_digit10 c then
        if byteLen l.input ≤ l.current_pos then none
        else
          Lexer.consume_number_go gas ⟨l.input, l.current_pos + 1⟩
            (wrap64 (number * 10 + ((c.toNat - 48 : Nat) : Int)))
      else some (number, l)

/-- `Lexer::consume_number`: consumes the maximal run of decimal digits,
accumulating `number = number * 10 + digit` in wrapping `i64` arithmetic.
The Rust body calls `self.consume().unwrap()`; the `none` result models
that unwrap aborting the process. -/
def Lexer.consume_number (l : Lexer) (number : Int) : Option (Int × Lexer) :=
  Lexer.consume_number_go (l.input.length + 1) l number

/-- `Lexer::consume_punctuation`: consumes one character and classifies it;
the `none` result models the `self.consume().unwrap()` aborting. -/
def Lexer.consume_punctuation (l : Lexer) : Option (TokenKind × Lexer) :=
  match l.consume with
  | (none, _) => none
  | (some c, l') =>
    if c = '+' then some (TokenKind.Plus, l')
    else if c = '-' then some (TokenKind.Minus, l')
    else if c = '*' then some (TokenKind.Asterisk, l')
    else if c = '/' then some (TokenKind.Slash, l')
    else if c = '(' then some (TokenKind.LeftParen, l')
    else if c = ')' then some (TokenKind.RightParen, l')
    else some (TokenKind.Bad, l')

/-- Result of one `Lexer::next_token` call: a token plus the new lexer
state, end-of-stream (`None` in Rust), or a process abort. -/
inductive LexStep where
  | tok (t : Token) (l : Lexer)
  | eos (l : Lexer)
  | panicked
deriving DecidableEq, Repr

/-- `Lexer::next_token`.  When the cursor equals the *byte* length it emits
the synthetic `EOF` token (span `[0,0)`, literal `"\0"`) and advances the
cursor past the end.  Otherwise it dispatches on the character at the
current *character* index, then slices the consumed *byte* range out of the
input for the token literal — `panicked` when that slice would abort. -/
def Lexer.next_token (l : Lexer) : LexStep :=
  if l.current_pos = byteLen l.input then
    .tok ⟨TokenKind.EOF, ⟨0, 0, [Char.ofNat 0]⟩⟩ ⟨l.input, l.current_pos + 1⟩
  else
    match l.current_char with
    | none => .eos l
    | some c =>
      let start := l.current_pos
      let step : Option (TokenKind × Lexer) :=
        if is_number_start c then
          (l.consume_number 0).map (fun p => (TokenKind.Number p.1, p.2))
        else if is_whitespace c then
          some (TokenKind.Whitespace, l.consume.2)
        else
          l.consume_punctuation
      match step with
      | none => .panicked
      | some (kind, l') =>
        match sliceBytes l.input start l'.current_pos with
        | none => .panicked
        | some lit => .tok ⟨kind, ⟨start, l'.current_pos, lit⟩⟩ l'

/-- Result of the driver's lexing loop
(`while let Some(token) = lexer.next_token()` in `main.rs`). -/
inductive LexRun where
  | ok (ts : List Token) (l : Lexer)
  | panicked
  | fuelOut
deriving DecidableEq, Repr

/-- The driver's lexing loop: collect tokens until `next_token` returns
nothing. -/
def lexRun : Nat → Lexer → LexRun
  | 0, _ => .fuelOut
  | fuel + 1, l =>
    match l.next_token with
    | .eos l' => .ok [] l'
    | .panicked => .panicked
    | .tok t l' =>
      match lexRun fuel l' with
      | .ok ts l'' => .ok (t :: ts) l''
      | r => r

/-- Modelled from the spec: the binary operator kinds of the missing
`src/ast/mod.rs` (`ASTBinaryOperatorKind`), "one of
Plus|Minus|Multiply|Divide". -/
inductive ASTBinaryOperatorKind where
  | Plus
  | Minus
  | Multiply
  | Divide
deriving DecidableEq, Repr

/-- Modelled from the spec: `ASTBinaryOperator` of the missing
`src/ast/mod.rs` — "kind: one of Plus|Minus|Multiply|Divide, token: the
originating Token". -/
structure ASTBinaryOperator where
  kind : ASTBinaryOperatorKind
  token : Token
deriving DecidableEq, Repr

/-- Modelled from the spec: the `precedence` method of the missing
`src/ast/mod.rs` — "Plus/Minus = 1 (or equivalent low tier),
Multiply/Divide = 2 (higher tier)". -/
def ASTBinaryOperator.precedence (op : ASTBinaryOperator) : Nat :=
  match op.kind with
  | .Plus => 1
  | .Minus => 1
  | .Multiply => 2
  | .Divide => 2

/-- Modelled from the spec: `ASTExpression` of the missing
`src/ast/mod.rs` — a closed variant over Number, Binary and Parenthesized
(the `paranthesized` spelling is the source's, from
`ASTExpression::paranthesized` in `parser.rs`). -/
inductive ASTExpression where
  | number (n : Int)
  | binary (operator : ASTBinaryOperator) (left right : ASTExpression)
  | paranthesized (inner : ASTExpression)
deriving DecidableEq, Repr

/-- Modelled from the spec: `ASTStatement` of the missing
`src/ast/mod.rs` — "currently only the Expression(ASTExpression) variant". -/
structure ASTStatement where
  expr : ASTExpression
deriving DecidableEq, Repr

/-- The parser state (`Parser` in `parser.rs`): the retained token vector
and the current index. -/
structure Parser where
  tokens : List Token
  current : Nat
deriving DecidableEq, Repr

/-- `Parser::new`: retains only tokens whose kind is not `Whitespace`,
preserving order. -/
def Parser.new (ts : List Token) : Parser :=
  ⟨ts.filter (fun t => decide (t.kind ≠ TokenKind.Whitespace)), 0⟩

/-- `Parser::peek`: `self.tokens.get((self.current as isize + offset) as usize)`.
A negative sum wraps to an index far beyond any actual vector, so the
lookup misses; the embedding returns `none` directly in that case. -/
def Parser.peek (p : Parser) (offset : Int) : Option Token :=
  if (p.current : Int) + offset < 0 then none
  else p.tokens[((p.current : Int) + offset).toNat]?

/-- `Parser::current` (named `currentTok` because `current` is the field
name): `self.peek(0)`. -/
def Parser.currentTok (p : Parser) : Option Token :=
  p.peek 0

/-- `Parser::consume`: increments `current` unconditionally, then returns
`peek(-1)` — the token that was current before the increment. -/
def Parser.consumeTok (p : Parser) : Option Token × Parser :=
  let p' : Parser := ⟨p.tokens, p.current + 1⟩
  (p'.peek (-1), p')

/-- `Parser::parse_binary_operator`: peeks (without consuming) the current
token and maps it to an operator, carrying the originating token. -/
def parse_binary_operator (p : Parser) : Option ASTBinaryOperator :=
  match p.currentTok with
  | none => none
  | some token =>
    match token.kind with
    | .Plus => some ⟨ASTBinaryOperatorKind.Plus, token⟩
    | .Minus => some ⟨ASTBinaryOperatorKind.Minus, token⟩
    | .Asterisk => some ⟨ASTBinaryOperatorKind.Multiply, token⟩
    | .Slash => some ⟨ASTBinaryOperatorKind.Divide, token⟩
    | _ => none

/-- Result of one parser routine: a Rust `Option` result plus the new
parser state, a process abort (the `Expected right paren` panic), or fuel
exhaustion (no Rust counterpart). -/
inductive PResult (α : Type) where
  | ok (val : Option α) (p : Parser)
  | panicked
  | fuelOut
deriving DecidableEq, Repr

mutual

/-- `Parser::parse_binary_expression(precedence)`: parses a primary
expression as the initial left operand, then runs the operator loop
(`parseBinaryLoop`).  `parse_expression` is this function at precedence 0. -/
def parse_binary_expression : Nat → Nat → Parser → PResult ASTExpression
  | 0, _, _ => .fuelOut
  | fuel + 1, precedence, p =>
    match parse_primary_expression fuel p with
    | .ok none p' => .ok none p'
    | .ok (some left) p' => parseBinaryLoop fuel precedence left p'
    | .panicked => .panicked
    | .fuelOut => .fuelOut

/-- The `while let Some(operator) = self.parse_binary_operator()` loop
inside `Parser::parse_binary_expression`: peek an operator; if present,
consume it *first*, then stop if its precedence is below the minimum,
otherwise recursively parse the right-hand side at the operator's own
precedence and fold into a Binary node. -/
def parseBinaryLoop : Nat → Nat → ASTExpression → Parser → PResult ASTExpression
  | 0, _, _, _ => .fuelOut
  | fuel + 1, precedence, left, p =>
    match parse_binary_operator p with
    | none => .ok (some left) p
    | some operator =>
      let p' := p.consumeTok.2
      if operator.precedence < precedence then .ok (some left) p'
      else
        match parse_binary_expression fuel operator.precedence p' with
        | .ok none p'' => .ok none p''
        | .ok (some right) p'' =>
          parseBinaryLoop fuel precedence
            (ASTExpression.binary operator left right) p''
        | .panicked => .panicked
        | .fuelOut => .fuelOut

/-- `Parser::parse_primary_expression`: consumes the current token; a
number becomes a leaf; a left parenthesis parses an inner expression
(`parse_expression`, i.e. `parse_binary_expression` at precedence 0) and
then requires a right parenthesis — anything else there is the fatal
`panic!("Expected right paren")`; any other token kind yields no result. -/
def parse_primary_expression : Nat → Parser → PResult ASTExpression
  | 0, _ => .fuelOut
  | fuel + 1, p =>
    match p.consumeTok with
    | (none, p') => .ok none p'
    | (some token, p') =>
      match token.kind with
      | .Number n => .ok (some (ASTExpression.number n)) p'
      | .LeftParen =>
        match parse_binary_expression fuel 0 p' with
        | .ok none p'' => .ok none p''
        | .ok (some inner) p'' =>
          match p''.consumeTok with
          | (none, p3) => .ok none p3
          | (some t2, p3) =>
            if t2.kind = TokenKind.RightParen then
              .ok (some (ASTExpression.paranthesized inner)) p3
            else .panicked
        | .panicked => .panicked
        | .fuelOut => .fuelOut
      | _ => .ok none p'

end

/-- `Parser::parse_expression`: `parse_binary_expression(0)`. -/
def parse_expression (fuel : Nat) (p : Parser) : PResult ASTExpression :=
  parse_binary_expression fuel 0 p

/-- `Parser::parse_statement`: reads the current token (failing silently
when absent), then parses one expression. -/
def parse_statement (fuel : Nat) (p : Parser) : PResult ASTStatement :=
  match p.currentTok with
  | none => .ok none p
  | some _ =>
    match parse_expression fuel p with
    | .ok none p' => .ok none p'
    | .ok (some e) p' => .ok (some ⟨e⟩) p'
    | .panicked => .panicked
    | .fuelOut => .fuelOut

/-- `Parser::next_statement`: returns nothing at end of tokens or on
`EOF`, otherwise parses a statement. -/
def next_statement (fuel : Nat) (p : Parser) : PResult ASTStatement :=
  match p.currentTok with
  | none => .ok none p
  | some token =>
    if token.kind = TokenKind.EOF then .ok none p
    else parse_statement fuel p

/-- Result of the driver's parsing loop
(`while let Some(stmt) = parser.next_statement()` in `main.rs`). -/
inductive ParseRun where
  | ok (stmts : List ASTStatement)
  | panicked
  | fuelOut
deriving DecidableEq, Repr

/-- The driver's parsing loop: collect statements until `next_statement`
returns nothing. -/
def runParser : Nat → Parser → ParseRun
  | 0, _ => .fuelOut
  | fuel + 1, p =>
    match next_statement fuel p with
    | .ok none _ => .ok []
    | .ok (some st) p' =>
      match runParser fuel p' with
      | .ok sts => .ok (st :: sts)
      | r => r
    | .panicked => .panicked
    | .fuelOut => .fuelOut

/-- The two ways `ASTEvaluator::visit_binary_expression` can abort the
process: `self.last_value.unwrap()` on `None`, or a division fault
(divisor zero, or `i64::MIN / -1`). -/
inductive EvalPanic where
  | unwrapNone
  | divPanic
deriving DecidableEq, Repr

/-- The arithmetic of `ASTEvaluator::visit_binary_expression`: wrapping
`i64` add/subtract/multiply and truncating division, which aborts on a
zero divisor or on `i64::MIN / -1`. -/
def evalBinop (k : ASTBinaryOperatorKind) (left right : Int) :
    Except EvalPanic Int :=
  match k with
  | .Plus => .ok (wrap64 (left + right))
  | .Minus => .ok (wrap64 (left - right))
  | .Multiply => .ok (wrap64 (left * right))
  | .Divide =>
    if right = 0 then .error .divPanic
    else if left = -(2 ^ 63) && right = -1 then .error .divPanic
    else .ok (Int.tdiv left right)

/-- The evaluator's expression visit, threading the `last_value` field
explicitly.  `visit_number` sets the state to the literal; the
Parenthesized case models the generic `visit_expression` dispatcher of the
missing `src/ast/mod.rs` ("recursing into Parenthesized by unwrapping and
visiting the inner expression" — modelled from the spec);
`visit_binary_expression` visits the left child, unwraps the state, visits
the right child, unwraps the state, then combines. -/
def visit_expression (lastValue : Option Int) :
    ASTExpression → Except EvalPanic (Option Int)
  | .number n => .ok (some n)
  | .paranthesized inner => visit_expression lastValue inner
  | .binary operator l r =>
    match visit_expression lastValue l with
    | .error e => .error e
    | .ok lv1 =>
      match lv1 with
      | none => .error .unwrapNone
      | some leftVal =>
        match visit_expression lv1 r with
        | .error e => .error e
        | .ok lv2 =>
          match lv2 with
          | none => .error .unwrapNone
          | some rightVal =>
            match evalBinop operator.kind leftVal rightVal with
            | .error e => .error e
            | .ok v => .ok (some v)

/-- `Ast::visit` with an `ASTEvaluator`: visit each statement in order,
the evaluator's `last_value` surviving from one statement to the next
(the statement dispatch of the missing `src/ast/mod.rs`, modelled from the
spec: "a statement is exactly one expression"). -/
def visit_statements : List ASTStatement → Option Int → Except EvalPanic (Option Int)
  | [], lv => .ok lv
  | st :: rest, lv =>
    match visit_expression lv st.expr with
    | .error e => .error e
    | .ok lv' => visit_statements rest lv'

/-- Outcome of the whole `main.rs` pipeline on an input string. -/
inductive PipelineResult where
  | value (r : Option Int)
  | lexPanicked
  | lexFuelOut
  | parsePanicked
  | parseFuelOut
  | evalPanicked (e : EvalPanic)
deriving DecidableEq, Repr

/-- The `main.rs` pipeline: lex all tokens, build a parser (filtering
whitespace), collect statements, evaluate them, and report the evaluator's
final `last_value`. -/
def run_pipeline (fuel : Nat) (s : List Char) : PipelineResult :=
  match lexRun fuel ⟨s, 0⟩ with
  | .panicked => .lexPanicked
  | .fuelOut => .lexFuelOut
  | .ok ts _ =>
    match runParser fuel (Parser.new ts) with
    | .panicked => .parsePanicked
    | .fuelOut => .parseFuelOut
    | .ok stmts =>
      match visit_statements stmts none with
      | .error e => .evalPanicked e
      | .ok v => .value v

/-- The driver's fixed sample input (`main.rs`). -/
def main_input : List Char :=
  "( 7  + 8) * 8 / 2".toList

/-- The token stream of the driver's sample input. -/
def sample_tokens : List Token := [
  ⟨.LeftParen, ⟨0, 1, ['(']⟩⟩, ⟨.Whitespace, ⟨1, 2, [' ']⟩⟩,
  ⟨.Number 7, ⟨2, 3, ['7']⟩⟩, ⟨.Whitespace, ⟨3, 4, [' ']⟩⟩,
  ⟨.Whitespace, ⟨4, 5, [' ']⟩⟩, ⟨.Plus, ⟨5, 6, ['+']⟩⟩,
  ⟨.Whitespace, ⟨6, 7, [' ']⟩⟩, ⟨.Number 8, ⟨7, 8, ['8']⟩⟩,
  ⟨.RightParen, ⟨8, 9, [')']⟩⟩, ⟨.Whitespace, ⟨9, 10, [' ']⟩⟩,
  ⟨.Asterisk, ⟨10, 11, ['*']⟩⟩, ⟨.Whitespace, ⟨11, 12, [' ']⟩⟩,
  ⟨.Number 8, ⟨12, 13, ['8']⟩⟩, ⟨.Whitespace, ⟨13, 14, [' ']⟩⟩,
  ⟨.Slash, ⟨14, 15, ['/']⟩⟩, ⟨.Whitespace, ⟨15, 16, [' ']⟩⟩,
  ⟨.Number 2, ⟨16, 17, ['2']⟩⟩, ⟨.EOF, ⟨0, 0, [Char.ofNat 0]⟩⟩]

/-- The statement the parser builds from the sample input: note the
equal-precedence `*`/`/` chain groups to the right, `(7+8) * (8/2)`,
which still evaluates to 60. -/
def sample_statements : List ASTStatement := [
  ⟨ASTExpression.binary
    ⟨ASTBinaryOperatorKind.Multiply, ⟨.Asterisk, ⟨10, 11, ['*']⟩⟩⟩
    (ASTExpression.paranthesized
      (ASTExpression.binary
        ⟨ASTBinaryOperatorKind.Plus, ⟨.Plus, ⟨5, 6, ['+']⟩⟩⟩
        (ASTExpression.number 7) (ASTExpression.number 8)))
    (ASTExpression.binary
      ⟨ASTBinaryOperatorKind.Divide, ⟨.Slash, ⟨14, 15, ['/']⟩⟩⟩
      (ASTExpression.number 8) (ASTExpression.number 2))⟩]

/-- The grammar alphabet of the lossless round-trip property: ASCII
digits, the four operators, parentheses, and ASCII whitespace. -/
def validChar (c : Char) : Bool :=
  is_digit10 c || c == '+' || c == '-' || c == '*' || c == '/' || c == '(' ||
  c == ')' || c == ' ' || c == '\t' || c == '\n' || c == Char.ofNat 11 ||
  c == Char.ofNat 12 || c == '\r'

/-!
## Claim theorems: concrete pipeline runs
-/

set_option maxHeartbeats 1000000 in
/-- C1 (code bug): the spec demands that `"8 - 3 - 2"` evaluate to 3
(left-to-right grouping for same-precedence chains), but the code parses
same-precedence chains right-associatively — `parse_binary_expression`
recurses at the *same* precedence and only stops when the next operator's
precedence is strictly lower — so the input parses as `8 - (3 - 2)` and
the pipeline produces 7. -/
theorem claim1_same_precedence_chain_evaluates_to_seven :
    run_pipeline 50 ("8 - 3 - 2".toList) = .value (some 7) := by
  decide

set_option maxHeartbeats 1000000 in
/-- C2: for `"1 + 2 * 3"` the pipeline produces 7, not 9 — the
multiply/divide tier (precedence 2) binds tighter than the plus/minus tier
(precedence 1). -/
theorem claim2_multiplication_binds_tighter :
    run_pipeline 50 ("1 + 2 * 3".toList) = .value (some 7) := by
  decide

/-- Composition of the three pipeline stages: explicit lexer, parser and
evaluator results determine the pipeline result. -/
theorem run_pipeline_eq_value (fuel : Nat) (s : List Char) (ts : List Token)
    (l' : Lexer) (stmts : List ASTStatement) (v : Option Int)
    (h1 : lexRun fuel ⟨s, 0⟩ = .ok ts l')
    (h2 : runParser fuel (Parser.new ts) = .ok stmts)
    (h3 : visit_statements stmts none = .ok v) :
    run_pipeline fuel s = .value v := by
  simp only [run_pipeline, h1, h2, h3]


set_option maxHeartbeats 1000000 in
/-- C3: on the driver's fixed sample input `"( 7  + 8) * 8 / 2"` the full
pipeline — lex, parse, evaluate — produces 60. -/
theorem claim3_sample_input_evaluates_to_sixty :
    run_pipeline 50 main_input = .value (some 60) :=
  run_pipeline_eq_value 50 main_input sample_tokens ⟨main_input, 18⟩
    sample_statements (some 60) (by decide) (by decide) rfl

set_option maxHeartbeats 1000000 in
/-- C6 (counterexample): the input `")("` contains an unmatched opening
parenthesis, yet parsing does *not* hit the fatal path: the leading `)` in
primary position makes `parse_primary_expression` return nothing, the
parser stops silently, and the pipeline ends with the silent absent result
(`last_value` still `None`) rather than a panic. -/
theorem claim6_counterexample :
    run_pipeline 50 (")(".toList) = .value none := by
  decide

set_option maxHeartbeats 1000000 in
/-- C6 (amended): for the input `"(1 + 2"` — where a parenthesized group's
inner expression parses but the next token is not a right parenthesis —
parsing triggers the fatal `panic!("Expected right paren")` in
`parse_primary_expression`, not a silent absent result. -/
theorem claim6_unmatched_paren_example_panics :
    run_pipeline 50 ("(1 + 2".toList) = .parsePanicked := by
  decide

/-- C7: when the operator loop of `parse_binary_expression`, running with
minimum precedence `prec`, sees an operator token of strictly lower
precedence, it stops only after having consumed that operator (the
parser's index has advanced one past it), so the operator is dropped from
the token stream rather than left for the caller. -/
theorem claim7_low_precedence_operator_consumed
    (fuel prec : Nat) (left : ASTExpression) (p : Parser)
    (op : ASTBinaryOperator)
    (hop : parse_binary_operator p = some op)
    (hlt : op.precedence < prec) :
    parseBinaryLoop (fuel + 1) prec left p =
      .ok (some left) ⟨p.tokens, p.current + 1⟩ := by
  simp only [parseBinaryLoop, hop, Parser.consumeTok, if_pos hlt]

/-- Witness for C7: a concrete loop state whose current token is `+`
(precedence 1) while the minimum precedence is 2: the loop returns the
left operand unchanged with the `+` token consumed. -/
theorem claim7_witness :
    parse_binary_operator ⟨[⟨TokenKind.Plus, ⟨0, 1, ['+']⟩⟩], 0⟩ =
        some ⟨ASTBinaryOperatorKind.Plus, ⟨TokenKind.Plus, ⟨0, 1, ['+']⟩⟩⟩ ∧
      (ASTBinaryOperator.precedence
          ⟨ASTBinaryOperatorKind.Plus, ⟨TokenKind.Plus, ⟨0, 1, ['+']⟩⟩⟩) < 2 ∧
      parseBinaryLoop 9 2 (ASTExpression.number 1)
          ⟨[⟨TokenKind.Plus, ⟨0, 1, ['+']⟩⟩], 0⟩ =
        .ok (some (ASTExpression.number 1)) ⟨[⟨TokenKind.Plus, ⟨0, 1, ['+']⟩⟩], 1⟩ :=
  ⟨by decide, by decide,
    claim7_low_precedence_operator_consumed 8 2 (ASTExpression.number 1)
      ⟨[⟨TokenKind.Plus, ⟨0, 1, ['+']⟩⟩], 0⟩
      ⟨ASTBinaryOperatorKind.Plus, ⟨TokenKind.Plus, ⟨0, 1, ['+']⟩⟩⟩
      (by decide) (by decide)⟩

set_option maxHeartbeats 1000000 in
/-- C9: `visit_binary_expression` evaluates the left child, then the right
child (with the left value as the evaluator state), then combines the two
values with the operator's integer arithmetic and stores the result; in
particular the pipeline evaluates `"7 / 2"` by truncating division to 3. -/
theorem claim9_binary_evaluation_order_and_truncating_division :
    run_pipeline 50 ("7 / 2".toList) = .value (some 3) ∧
      ∀ (op : ASTBinaryOperator) (l r : ASTExpression) (lv : Option Int)
        (a b : Int),
        visit_expression lv l = .ok (some a) →
        visit_expression (some a) r = .ok (some b) →
        visit_expression lv (ASTExpression.binary op l r) =
          Except.map some (evalBinop op.kind a b) := by
  refine ⟨by decide, ?_⟩
  intro op l r lv a b hl hr
  simp only [visit_expression, hl, hr]
  cases evalBinop op.kind a b <;> rfl

/-- Witness for C9: on the tree of `7 / 2` the general part of the claim
theorem yields exactly the truncated quotient 3. -/
theorem claim9_witness :
    visit_expression none
        (ASTExpression.binary ⟨ASTBinaryOperatorKind.Divide, ⟨TokenKind.Slash, ⟨2, 3, ['/']⟩⟩⟩
          (ASTExpression.number 7) (ASTExpression.number 2)) =
      Except.map some
        (evalBinop ASTBinaryOperatorKind.Divide 7 2) :=
  claim9_binary_evaluation_order_and_truncating_division.2
    ⟨ASTBinaryOperatorKind.Divide, ⟨TokenKind.Slash, ⟨2, 3, ['/']⟩⟩⟩
    (ASTExpression.number 7) (ASTExpression.number 2) none 7 2 rfl rfl

/-- The evaluator's binary arithmetic can fault only through the division
branch, never through an unwrap. -/
theorem evalBinop_ne_unwrapNone (k : ASTBinaryOperatorKind) (a b : Int) :
    evalBinop k a b ≠ .error EvalPanic.unwrapNone := by
  cases k
  case Plus => exact fun h => Except.noConfusion h
  case Minus => exact fun h => Except.noConfusion h
  case Multiply => exact fun h => Except.noConfusion h
  case Divide =>
    simp only [evalBinop]
    split
    · exact fun h => EvalPanic.noConfusion (Except.error.inj h)
    · split
      · exact fun h => EvalPanic.noConfusion (Except.error.inj h)
      · exact fun h => Except.noConfusion h

/-- C10: visiting any expression leaves the evaluator's `last_value` set
(`isSome`), and no visit ever aborts via the `last_value.unwrap()` calls
inside `visit_binary_expression` (the only possible abort is the separate
division fault); in particular this holds for every tree the parser can
produce. -/
theorem claim10_last_value_always_some (e : ASTExpression) (lv : Option Int) :
    visit_expression lv e ≠ .error EvalPanic.unwrapNone ∧
      ∀ r, visit_expression lv e = .ok r → r.isSome = true := by
  induction e generalizing lv with
  | number n =>
    refine ⟨fun h => ?_, fun r h => ?_⟩
    · exact Except.noConfusion h
    · cases Except.ok.inj h
      rfl
  | paranthesized inner ih =>
    exact ih lv
  | binary op l r ihl ihr =>
    rcases hle : visit_expression lv l with el | lv1
    · have hel : el = EvalPanic.divPanic := by
        cases el
        · exact absurd hle (ihl lv).1
        · rfl
      refine ⟨fun hcontra => ?_, fun res hres => ?_⟩
      · simp only [visit_expression, hle] at hcontra
        exact EvalPanic.noConfusion (hel ▸ Except.error.inj hcontra)
      · simp only [visit_expression, hle] at hres
        exact Except.noConfusion hres
    · have hl1 := (ihl lv).2 lv1 hle
      rcases lv1 with _ | a
      · exact absurd hl1 (by simp)
      · rcases hre : visit_expression (some a) r with er | lv2
        · have her : er = EvalPanic.divPanic := by
            cases er
            · exact absurd hre (ihr (some a)).1
            · rfl
          refine ⟨fun hcontra => ?_, fun res hres => ?_⟩
          · simp only [visit_expression, hle, hre] at hcontra
            exact EvalPanic.noConfusion (her ▸ Except.error.inj hcontra)
          · simp only [visit_expression, hle, hre] at hres
            exact Except.noConfusion hres
        · have hr1 := (ihr (some a)).2 lv2 hre
          rcases lv2 with _ | b
          · exact absurd hr1 (by simp)
          · rcases hev : evalBinop op.kind a b with ev | v
            · have hv : ev = EvalPanic.divPanic := by
                cases ev
                · exact absurd hev (evalBinop_ne_unwrapNone op.kind a b)
                · rfl
              refine ⟨fun hcontra => ?_, fun res hres => ?_⟩
              · simp only [visit_expression, hle, hre, hev] at hcontra
                exact EvalPanic.noConfusion (hv ▸ Except.error.inj hcontra)
              · simp only [visit_expression, hle, hre, hev] at hres
                exact Except.noConfusion hres
            · refine ⟨fun hcontra => ?_, fun res hres => ?_⟩
              · simp only [visit_expression, hle, hre, hev] at hcontra
                exact Except.noConfusion hcontra
              · simp only [visit_expression, hle, hre, hev] at hres
                cases Except.ok.inj hres
                rfl

/-- Witness for C10: the unwrap-safety theorem applied to the tree of
`1 + 2` with the evaluator in its initial state. -/
theorem claim10_witness :
    visit_expression none
        (ASTExpression.binary ⟨ASTBinaryOperatorKind.Plus, ⟨TokenKind.Plus, ⟨2, 3, ['+']⟩⟩⟩
          (ASTExpression.number 1) (ASTExpression.number 2)) ≠
      .error EvalPanic.unwrapNone :=
  (claim10_last_value_always_some
    (ASTExpression.binary ⟨ASTBinaryOperatorKind.Plus, ⟨TokenKind.Plus, ⟨2, 3, ['+']⟩⟩⟩
      (ASTExpression.number 1) (ASTExpression.number 2)) none).1

/-!
## Lexer lemmas for single-byte inputs
-/

theorem byteLen_eq_length (s : List Char) (h : ∀ c ∈ s, utf8Len c = 1) :
    byteLen s = s.length := by
  induction s with
  | nil => rfl
  | cons c t ih =>
    simp only [byteLen, List.length_cons]
    rw [h c (by simp), ih (fun c' hc' => h c' (by simp [hc']))]
    omega

theorem consume_number_go_spec (s : List Char) (h : ∀ c ∈ s, utf8Len c = 1) :
    ∀ gas pos n, s.length - pos < gas →
      ∃ v, Lexer.consume_number_go gas ⟨s, pos⟩ n =
        some (v, ⟨s, pos + ((s.drop pos).takeWhile is_digit10).length⟩) := by
  intro gas
  induction gas with
  | zero => intro pos n hg; omega
  | succ g ih =>
    intro pos n hg
    rcases hp : s[pos]? with _ | c
    · have hge : s.length ≤ pos := by
        by_contra hlt
        push_neg at hlt
        rw [List.getElem?_eq_getElem hlt] at hp
        exact Option.noConfusion hp
      refine ⟨n, ?_⟩
      simp only [Lexer.consume_number_go, hp]
      rw [List.drop_eq_nil_of_le hge]
      simp
    · have hlt : pos < s.length := by
        rcases List.getElem?_eq_some_iff.mp hp with ⟨hl, _⟩
        exact hl
      have hdrop : s.drop pos = c :: s.drop (pos + 1) := by
        rw [List.drop_eq_getElem_cons hlt]
        rcases List.getElem?_eq_some_iff.mp hp with ⟨_, he⟩
        rw [he]
      cases hdig : is_digit10 c
      · refine ⟨n, ?_⟩
        simp only [Lexer.consume_number_go, hp, hdig]
        rw [hdrop]
        simp [List.takeWhile_cons, hdig]
      · have hbl : ¬ (byteLen s ≤ pos) := by
          rw [byteLen_eq_length s h]
          omega
        obtain ⟨v, hv⟩ :=
          ih (pos + 1) (wrap64 (n * 10 + ((c.toNat - 48 : Nat) : Int))) (by omega)
        refine ⟨v, ?_⟩
        simp only [Lexer.consume_number_go, hp, hdig, if_neg hbl, if_pos]
        rw [hv, hdrop]
        simp [List.takeWhile_cons, hdig, Prod.mk.injEq, Lexer.mk.injEq]
        omega

theorem consume_number_spec (s : List Char) (h : ∀ c ∈ s, utf8Len c = 1)
    (pos : Nat) (n : Int) :
    ∃ v, Lexer.consume_number ⟨s, pos⟩ n =
      some (v, ⟨s, pos + ((s.drop pos).takeWhile is_digit10).length⟩) :=
  consume_number_go_spec s h (s.length + 1) pos n (by omega)

theorem takeWhile_length_le (p : Char → Bool) (l : List Char) :
    (l.takeWhile p).length ≤ l.length := by
  induction l with
  | nil => simp
  | cons c t ih =>
    rw [List.takeWhile_cons]
    cases p c
    · simp
    · simpa using ih

theorem dropBytes_single (s : List Char) (n : Nat) (h : ∀ c ∈ s, utf8Len c = 1)
    (hn : n ≤ s.length) : dropBytes s n = some (s.drop n) := by
  induction s generalizing n with
  | nil =>
    cases n with
    | zero => rfl
    | succ m => simp at hn
  | cons c t ih =>
    cases n with
    | zero => rfl
    | succ m =>
      have hc : utf8Len c = 1 := h c (by simp)
      simp only [dropBytes, hc]
      rw [if_pos (by omega)]
      have := ih m (fun c' hc' => h c' (by simp [hc'])) (by simpa using hn)
      simpa using this

theorem takeBytes_single (s : List Char) (n : Nat) (h : ∀ c ∈ s, utf8Len c = 1)
    (hn : n ≤ s.length) : takeBytes s n = some (s.take n) := by
  induction s generalizing n with
  | nil =>
    cases n with
    | zero => rfl
    | succ m => simp at hn
  | cons c t ih =>
    cases n with
    | zero => rfl
    | succ m =>
      have hc : utf8Len c = 1 := h c (by simp)
      simp only [takeBytes, hc]
      rw [if_pos (by omega)]
      have := ih m (fun c' hc' => h c' (by simp [hc'])) (by simpa using hn)
      simp [this]

theorem sliceBytes_single (s : List Char) (a b : Nat)
    (h : ∀ c ∈ s, utf8Len c = 1) (hab : a ≤ b) (hb : b ≤ s.length) :
    sliceBytes s a b = some ((s.drop a).take (b - a)) := by
  have hdrop : dropBytes s a = some (s.drop a) :=
    dropBytes_single s a h (le_trans hab hb)
  have hsub : ∀ c ∈ s.drop a, utf8Len c = 1 :=
    fun c hc => h c (List.mem_of_mem_drop hc)
  have htake : takeBytes (s.drop a) (b - a) = some ((s.drop a).take (b - a)) :=
    takeBytes_single _ _ hsub (by rw [List.length_drop]; omega)
  simp [sliceBytes, hab, hdrop, htake]

theorem next_token_step (s : List Char) (h : ∀ c ∈ s, utf8Len c = 1)
    (pos : Nat) (hpos : pos < s.length) :
    ∃ k t, 0 < k ∧ pos + k ≤ s.length ∧
      Lexer.next_token ⟨s, pos⟩ = .tok t ⟨s, pos + k⟩ ∧
      t.span.literal = (s.drop pos).take k ∧
      t.kind ≠ TokenKind.EOF := by
  have hbl : byteLen s = s.length := byteLen_eq_length s h
  have hne : ¬ (pos = byteLen s) := by omega
  have hch : s[pos]? = some s[pos] := List.getElem?_eq_getElem hpos
  have hdropc : s.drop pos = s[pos] :: s.drop (pos + 1) :=
    List.drop_eq_getElem_cons hpos
  by_cases hnum : is_number_start s[pos]
  · obtain ⟨v, hv⟩ := consume_number_spec s h pos 0
    set k := ((s.drop pos).takeWhile is_digit10).length with hk
    have hk1 : 0 < k := by
      rw [hk, hdropc, List.takeWhile_cons]
      have hd : is_digit10 s[pos] = true := hnum
      rw [hd]
      simp
    have hk2 : pos + k ≤ s.length := by
      have h1 : k ≤ (s.drop pos).length := takeWhile_length_le _ _
      rw [List.length_drop] at h1
      omega
    have hslice : sliceBytes s pos (pos + k) = some ((s.drop pos).take k) := by
      have he : pos + k - pos = k := by omega
      rw [sliceBytes_single s pos (pos + k) h (by omega) hk2, he]
    refine ⟨k, ⟨TokenKind.Number v, ⟨pos, pos + k, (s.drop pos).take k⟩⟩,
      hk1, hk2, ?_, rfl, by simp⟩
    simp only [Lexer.next_token, if_neg hne, Lexer.current_char, hch, hnum,
      if_pos, hv, Option.map_some', hslice]
  · by_cases hws : is_whitespace s[pos]
    · have hble : ¬ (byteLen s ≤ pos) := by omega
      have hcons : Lexer.consume ⟨s, pos⟩ = (some s[pos], ⟨s, pos + 1⟩) := by
        simp [Lexer.consume, if_neg hble, Lexer.current_char, hch]
      have hslice : sliceBytes s pos (pos + 1) = some ((s.drop pos).take 1) := by
        have he : pos + 1 - pos = 1 := by omega
        rw [sliceBytes_single s pos (pos + 1) h (by omega) (by omega), he]
      refine ⟨1, ⟨TokenKind.Whitespace, ⟨pos, pos + 1, (s.drop pos).take 1⟩⟩,
        by omega, by omega, ?_, rfl, by simp⟩
      simp only [Lexer.next_token, if_neg hne, Lexer.current_char, hch,
        Bool.not_eq_true] at hnum
      simp only [Lexer.next_token, if_neg hne, Lexer.current_char, hch, hnum,
        hws, Bool.false_eq_true, if_false, if_pos, hcons, hslice]
    · have hble : ¬ (byteLen s ≤ pos) := by omega
      have hpunct : ∃ kd, Lexer.consume_punctuation ⟨s, pos⟩ =
          some (kd, ⟨s, pos + 1⟩) ∧ kd ≠ TokenKind.EOF := by
        simp only [Lexer.consume_punctuation, Lexer.consume, if_neg hble,
          Lexer.current_char, hch]
        split_ifs <;> exact ⟨_, rfl, by simp⟩
      obtain ⟨kd, hkd, hkdne⟩ := hpunct
      have hslice : sliceBytes s pos (pos + 1) = some ((s.drop pos).take 1) := by
        have he : pos + 1 - pos = 1 := by omega
        rw [sliceBytes_single s pos (pos + 1) h (by omega) (by omega), he]
      refine ⟨1, ⟨kd, ⟨pos, pos + 1, (s.drop pos).take 1⟩⟩,
        by omega, by omega, ?_, rfl, hkdne⟩
      simp only [Bool.not_eq_true] at hnum hws
      simp only [Lexer.next_token, if_neg hne, Lexer.current_char, hch, hnum,
        hws, Bool.false_eq_true, if_false, hkd, hslice]

/-- Past-the-end behaviour: once the cursor has moved beyond the byte
length (as it does right after emitting `EOF` on a single-byte string),
every further `next_token` call returns nothing and leaves the state
unchanged. -/
theorem next_token_past_end (s : List Char) (h : ∀ c ∈ s, utf8Len c = 1) :
    Lexer.next_token ⟨s, s.length + 1⟩ = .eos ⟨s, s.length + 1⟩ := by
  have hbl : byteLen s = s.length := byteLen_eq_length s h
  have hne : ¬ (s.length + 1 = byteLen s) := by omega
  have hch : s[s.length + 1]? = (none : Option Char) :=
    List.getElem?_eq_none (by omega)
  simp [Lexer.next_token, if_neg hne, Lexer.current_char, hch]

/-- The driver's lexing loop on a single-byte string: with sufficient fuel
it terminates cleanly with the cursor one past the end, the concatenated
literals are the remaining input plus the `EOF` token's NUL literal,
exactly one emitted token is `EOF`, and that token carries the synthetic
zero-length span. -/
theorem lexRun_spec (s : List Char) (h : ∀ c ∈ s, utf8Len c = 1) :
    ∀ fuel pos, pos ≤ s.length → s.length - pos + 2 ≤ fuel →
      ∃ ts, lexRun fuel ⟨s, pos⟩ = .ok ts ⟨s, s.length + 1⟩ ∧
        (ts.map (fun t => t.span.literal)).flatten =
          s.drop pos ++ [Char.ofNat 0] ∧
        (ts.filter (fun t => decide (t.kind = TokenKind.EOF))).length = 1 ∧
        ∀ t ∈ ts, t.kind = TokenKind.EOF → t.span = ⟨0, 0, [Char.ofNat 0]⟩ := by
  intro fuel
  induction fuel with
  | zero => intro pos hpos hf; omega
  | succ f ih =>
    intro pos hpos hf
    rcases Nat.lt_or_ge pos s.length with hlt | hge
    · -- a real token, then recurse
      obtain ⟨k, t, hk1, hk2, hstep, hlit, hkind⟩ := next_token_step s h pos hlt
      obtain ⟨ts', hrun, hflat, hcount, heof⟩ := ih (pos + k) hk2 (by omega)
      refine ⟨t :: ts', ?_, ?_, ?_, ?_⟩
      · simp only [lexRun, hstep, hrun]
      · simp only [List.map_cons, List.flatten_cons, hflat, hlit]
        rw [← List.append_assoc, ← List.drop_drop, List.take_append_drop]
      · simp only [List.filter_cons]
        rw [decide_eq_false hkind]
        simpa using hcount
      · intro t' ht' hkt'
        rcases List.mem_cons.mp ht' with rfl | hmem
        · exact absurd hkt' hkind
        · exact heof t' hmem hkt'
    · -- at the end: emit EOF, then the stream ends
      have hpe : pos = s.length := by omega
      have hbl : byteLen s = s.length := byteLen_eq_length s h
      have heq : pos = byteLen s := by omega
      rcases f with _ | f'
      · omega
      · refine ⟨[⟨TokenKind.EOF, ⟨0, 0, [Char.ofNat 0]⟩⟩], ?_, ?_, ?_, ?_⟩
        · have hstep : Lexer.next_token ⟨s, pos⟩ =
              .tok ⟨TokenKind.EOF, ⟨0, 0, [Char.ofNat 0]⟩⟩ ⟨s, pos + 1⟩ := by
            simp [Lexer.next_token, if_pos heq]
          have hstep2 : Lexer.next_token ⟨s, pos + 1⟩ = .eos ⟨s, pos + 1⟩ := by
            rw [hpe]
            exact next_token_past_end s h
          simp only [lexRun, hstep, hstep2]
          rw [hpe]
        · rw [hpe]
          simp [List.drop_length]
        · simp
        · intro t' ht' _
          rcases List.mem_cons.mp ht' with rfl | hmem
          · rfl
          · simp at hmem

/-- Every character of the round-trip alphabet is a single UTF-8 byte. -/
theorem validChar_singleByte (c : Char) (h : validChar c = true) :
    utf8Len c = 1 := by
  simp only [validChar, Bool.or_eq_true, beq_iff_eq, or_assoc] at h
  rcases h with hd | rfl | rfl | rfl | rfl | rfl | rfl | rfl | rfl | rfl |
    rfl | rfl | rfl
  · simp only [is_digit10, Bool.and_eq_true, decide_eq_true_eq] at hd
    simp only [utf8Len]
    rw [if_pos (by omega)]
  all_goals decide

/-- C4 (amended): for every input over the grammar alphabet (ASCII digits,
`+ - * /`, parentheses, ASCII whitespace), lexing terminates cleanly and
concatenating the literal fields of *all* produced tokens reproduces the
original input followed by exactly one NUL character — the final `EOF`
token's literal.  (Dropping that final token reproduces the input
exactly.) -/
theorem claim4_roundtrip_appends_nul (s : List Char)
    (hval : ∀ c ∈ s, validChar c = true) :
    ∃ ts, lexRun (s.length + 2) ⟨s, 0⟩ = .ok ts ⟨s, s.length + 1⟩ ∧
      (ts.map (fun t => t.span.literal)).flatten = s ++ [Char.ofNat 0] := by
  have hflat : ∀ c ∈ s, utf8Len c = 1 :=
    fun c hc => validChar_singleByte c (hval c hc)
  obtain ⟨ts, hrun, hcat, _, _⟩ :=
    lexRun_spec s hflat (s.length + 2) 0 (by omega) (by omega)
  exact ⟨ts, hrun, by simpa using hcat⟩

/-- Witness for C4: the amended round-trip at the concrete input `"1 +"`. -/
theorem claim4_witness :
    ∃ ts, lexRun ("1 +".toList.length + 2) ⟨"1 +".toList, 0⟩ =
        .ok ts ⟨"1 +".toList, "1 +".toList.length + 1⟩ ∧
      (ts.map (fun t => t.span.literal)).flatten =
        "1 +".toList ++ [Char.ofNat 0] :=
  claim4_roundtrip_appends_nul ("1 +".toList) (by decide)

/-- Counterexample for C4 as stated: lexing the empty string produces
exactly the `EOF` token, and the concatenation of all token literals is
the one-character NUL string — not the original (empty) input. -/
theorem claim4_counterexample :
    lexRun 2 ⟨([] : List Char), 0⟩ =
        .ok [⟨TokenKind.EOF, ⟨0, 0, [Char.ofNat 0]⟩⟩] ⟨[], 1⟩ ∧
      (([⟨TokenKind.EOF, ⟨0, 0, [Char.ofNat 0]⟩⟩] : List Token).map
          (fun t => t.span.literal)).flatten ≠ ([] : List Char) :=
  ⟨by decide, by decide⟩

/-- C5 (amended): for every input string of single-byte characters, the
token stream contains exactly one `EOF` token, that token carries the
synthetic zero-length span with the NUL literal, and every `next_token`
call after it returns nothing; lexing the empty string yields exactly the
one `EOF` token. -/
theorem claim5_eof_exactly_once_single_byte :
    (∀ s : List Char, (∀ c ∈ s, utf8Len c = 1) →
      ∃ ts, lexRun (s.length + 2) ⟨s, 0⟩ = .ok ts ⟨s, s.length + 1⟩ ∧
        (ts.filter (fun t => decide (t.kind = TokenKind.EOF))).length = 1 ∧
        (∀ t ∈ ts, t.kind = TokenKind.EOF →
          t.span = ⟨0, 0, [Char.ofNat 0]⟩) ∧
        Lexer.next_token ⟨s, s.length + 1⟩ = .eos ⟨s, s.length + 1⟩) ∧
    lexRun 2 ⟨([] : List Char), 0⟩ =
      .ok [⟨TokenKind.EOF, ⟨0, 0, [Char.ofNat 0]⟩⟩] ⟨[], 1⟩ := by
  constructor
  · intro s hflat
    obtain ⟨ts, hrun, _, hcount, heof⟩ :=
      lexRun_spec s hflat (s.length + 2) 0 (by omega) (by omega)
    exact ⟨ts, hrun, hcount, heof, next_token_past_end s hflat⟩
  · decide

/-- Witness for C5: the unique-`EOF` property at the concrete input `"7*"`. -/
theorem claim5_witness :
    ∃ ts, lexRun ("7*".toList.length + 2) ⟨"7*".toList, 0⟩ =
        .ok ts ⟨"7*".toList, "7*".toList.length + 1⟩ ∧
      (ts.filter (fun t => decide (t.kind = TokenKind.EOF))).length = 1 ∧
      (∀ t ∈ ts, t.kind = TokenKind.EOF → t.span = ⟨0, 0, [Char.ofNat 0]⟩) ∧
      Lexer.next_token ⟨"7*".toList, "7*".toList.length + 1⟩ =
        .eos ⟨"7*".toList, "7*".toList.length + 1⟩ :=
  claim5_eof_exactly_once_single_byte.1 ("7*".toList) (by decide)

/-- Counterexample for C5 as stated (over *every* input string): on the
two-byte character U+00E9 the very first `next_token` call aborts — the
cursor arithmetic mixes byte lengths with character indices, and the
literal slice falls inside the multi-byte character — so the stream never
contains an `EOF` token. -/
theorem claim5_counterexample :
    lexRun 3 ⟨[Char.ofNat 233], 0⟩ = .panicked := by
  decide

/-- C8 (amended): on an input of single-byte characters, an unrecognized
character (not a digit, not whitespace, not one of `+ - * / ( )`) never
aborts lexing: `next_token` consumes exactly that one character and
returns a `Bad` token carrying it. -/
theorem claim8_bad_char_single_byte (s : List Char) (pos : Nat) (c : Char)
    (hflat : ∀ c' ∈ s, utf8Len c' = 1) (hc : s[pos]? = some c)
    (hnum : is_number_start c = false) (hws : is_whitespace c = false)
    (hplus : c ≠ '+') (hminus : c ≠ '-') (hstar : c ≠ '*') (hslash : c ≠ '/')
    (hlp : c ≠ '(') (hrp : c ≠ ')') :
    Lexer.next_token ⟨s, pos⟩ =
      .tok ⟨TokenKind.Bad, ⟨pos, pos + 1, [c]⟩⟩ ⟨s, pos + 1⟩ := by
  obtain ⟨hpos, hcel⟩ := List.getElem?_eq_some_iff.mp hc
  have hbl : byteLen s = s.length := byteLen_eq_length s hflat
  have hne : ¬ (pos = byteLen s) := by omega
  have hble : ¬ (byteLen s ≤ pos) := by omega
  have hcons : Lexer.consume ⟨s, pos⟩ = (some c, ⟨s, pos + 1⟩) := by
    simp [Lexer.consume, if_neg hble, Lexer.current_char, hc]
  have hpunct : Lexer.consume_punctuation ⟨s, pos⟩ =
      some (TokenKind.Bad, ⟨s, pos + 1⟩) := by
    simp only [Lexer.consume_punctuation, hcons]
    rw [if_neg hplus, if_neg hminus, if_neg hstar, if_neg hslash,
      if_neg hlp, if_neg hrp]
  have hdropc : s.drop pos = c :: s.drop (pos + 1) := by
    rw [List.drop_eq_getElem_cons hpos, hcel]
  have hslice : sliceBytes s pos (pos + 1) = some [c] := by
    have he : pos + 1 - pos = 1 := by omega
    rw [sliceBytes_single s pos (pos + 1) hflat (by omega) (by omega), he,
      hdropc]
    simp
  simp only [Lexer.next_token, if_neg hne, Lexer.current_char, hc, hnum, hws,
    Bool.false_eq_true, if_false, hpunct, hslice]

/-- Witness for C8: the unrecognized character `@` becomes a `Bad` token. -/
theorem claim8_witness :
    is_number_start '@' = false ∧ is_whitespace '@' = false ∧
      Lexer.next_token ⟨['@'], 0⟩ =
        .tok ⟨TokenKind.Bad, ⟨0, 1, ['@']⟩⟩ ⟨['@'], 1⟩ :=
  ⟨by decide, by decide,
    claim8_bad_char_single_byte ['@'] 0 '@' (by decide) (by decide)
      (by decide) (by decide) (by decide) (by decide) (by decide)
      (by decide) (by decide) (by decide)⟩

/-- Counterexample for C8 as stated (over *every* input string): on the
unrecognized two-byte character U+00E9 the lexer does *not* return a `Bad`
token — the literal byte-slice falls inside the character and the call
aborts the process. -/
theorem claim8_counterexample :
    Lexer.next_token ⟨[Char.ofNat 233], 0⟩ = .panicked := by
  decide

end Fusion
